import Mathlib

/-!
Verification of the csv-search synchronization-and-retrieval core.

This file gives a shallow embedding of the program's data model and
operations and proves the frozen claims about them:

* `internal/vector/vector.go` — binary vector codec (`Serialize`, `Deserialize`).
* `internal/vector/similarity.go` — cosine similarity (`Cosine`).
* `internal/ingest/ingest.go` — column resolution (`resolveColumns`), row
  parsing (`buildRecord`), content fingerprints (`hashRecord`), the skip rule
  (`shouldSkip`), the multi-relation upsert (`upsertRecord`) and the ingestion
  loop (`Run`).
* the ranked retrieval engine's sort/truncate stage and its metadata
  equality filters.

Modelling conventions:

* float32 values handled by the codec are modelled by their 32-bit patterns
  (`Nat` below `2 ^ 32`), exactly the values `math.Float32bits` manipulates;
* float64 quantities (similarity scores, coordinates) are modelled as `ℚ`
  (the claims proved here depend only on ordered-field facts such as
  "a sum of squares is zero iff every summand is zero", which hold exactly
  for the float computations involved: products of nonzero float32-derived
  doubles never underflow to zero and sums of nonnegative doubles never
  round to zero);
* Go maps are modelled as association lists with unique keys, SQL tables as
  association lists keyed by `(dataset, id)`;
* `strings.TrimSpace` / `strings.ToLower` are modelled structurally over the
  character list of a string (ASCII whitespace and ASCII case folding; the
  claims only exercise these).
-/

namespace CsvSearch

/-! ## String helpers (models of `strings.TrimSpace`, `strings.ToLower`, `strings.Join`) -/

/-- ASCII whitespace recognizer, modelling `unicode.IsSpace` on the ASCII range. -/
def isSpaceChar (c : Char) : Bool :=
  (c = ' ') || (c = '\t') || (c = '\n') || (c = '\r') || (c = '\x0b') || (c = '\x0c')

/-- Drop leading and trailing whitespace from a character list. -/
def trimChars (l : List Char) : List Char :=
  ((l.dropWhile isSpaceChar).reverse.dropWhile isSpaceChar).reverse

/-- Model of Go's `strings.TrimSpace`. -/
def trimSpace (s : String) : String :=
  ⟨trimChars s.data⟩

/-- ASCII lower-casing of one character, modelling `unicode.ToLower` on ASCII. -/
def lowerChar (c : Char) : Char :=
  if 'A' ≤ c && c ≤ 'Z' then Char.ofNat (c.toNat + 32) else c

/-- Model of Go's `strings.ToLower`. -/
def toLowerStr (s : String) : String :=
  ⟨s.data.map lowerChar⟩

/-- Byte-order comparison of characters, modelling Go's `<` on strings
(UTF-8 byte order coincides with code-point order). -/
def charLTb (a b : Char) : Bool :=
  a.toNat < b.toNat

/-- Lexicographic `≤` on character lists. -/
def charListLEb : List Char → List Char → Bool
  | [], _ => true
  | _ :: _, [] => false
  | a :: as, b :: bs => if a = b then charListLEb as bs else charLTb a b

/-- Lexicographic `≤` on strings, modelling Go's `<=` used by `sort.Strings`. -/
def strLEb (a b : String) : Bool :=
  charListLEb a.data b.data

/-- Model of Go's `strings.Join`. -/
def goJoin (sep : String) : List String → String
  | [] => ""
  | [s] => s
  | s :: rest => s ++ sep ++ goJoin sep rest

/-! ## Vector codec — `internal/vector/vector.go`

A float32 value is modelled by its bit pattern, a `Nat` below `2 ^ 32`
(`math.Float32bits` / `math.Float32frombits` are mutually inverse bijections
between float32 values and `uint32`). A byte slice is a `List Nat` of values
below `2 ^ 8`. -/

/-- Model of `vector.Serialize`: each element as 4 little-endian bytes,
no length header. -/
def Serialize (vec : List Nat) : List Nat :=
  vec.flatMap (fun v => [v % 256, v / 256 % 256, v / 65536 % 256, v / 16777216 % 256])

/-- Little-endian recombination of consecutive 4-byte groups, the loop body
of `vector.Deserialize`. -/
def deserializeChunks : List Nat → List Nat
  | b0 :: b1 :: b2 :: b3 :: rest =>
      (b0 + 256 * b1 + 65536 * b2 + 16777216 * b3) :: deserializeChunks rest
  | _ => []

/-- Model of `vector.Deserialize`: fails exactly on byte lengths that are not
a multiple of 4. -/
def Deserialize (data : List Nat) : Option (List Nat) :=
  if data.length % 4 ≠ 0 then none else some (deserializeChunks data)

/-! ## Cosine similarity — `internal/vector/similarity.go` -/

/-- Sum of pairwise products, the `dot` accumulator of `vector.Cosine`. -/
def dotProd (a b : List ℚ) : ℚ :=
  (List.zipWith (· * ·) a b).sum

/-- Sum of squares, the `na` / `nb` accumulators of `vector.Cosine`. -/
def normSq (a : List ℚ) : ℚ :=
  (a.map (fun x => x * x)).sum

/-- Model of `vector.Cosine`: returns 0 when either vector is empty or the
lengths differ, and again 0 when either accumulated square-norm is zero;
otherwise divides the dot product by the product of the norms. -/
noncomputable def Cosine (a b : List ℚ) : ℝ :=
  if a.length = 0 ∨ b.length = 0 ∨ a.length ≠ b.length then 0
  else if normSq a = 0 ∨ normSq b = 0 then 0
  else (dotProd a b : ℝ) / (Real.sqrt (normSq a) * Real.sqrt (normSq b))

/-! ## Lemmas for the codec -/

theorem deserializeChunks_append4 (b0 b1 b2 b3 : Nat) (rest : List Nat) :
    deserializeChunks (b0 :: b1 :: b2 :: b3 :: rest) =
      (b0 + 256 * b1 + 65536 * b2 + 16777216 * b3) :: deserializeChunks rest := rfl

theorem le_byte_recombine (v : Nat) (h : v < 4294967296) :
    v % 256 + 256 * (v / 256 % 256) + 65536 * (v / 65536 % 256)
      + 16777216 * (v / 16777216 % 256) = v := by
  omega

theorem serialize_length (vec : List Nat) : (Serialize vec).length = 4 * vec.length := by
  induction vec with
  | nil => rfl
  | cons v rest ih => simp [Serialize, List.flatMap_cons] at ih ⊢; omega

theorem deserializeChunks_serialize (vec : List Nat) (h : ∀ x ∈ vec, x < 4294967296) :
    deserializeChunks (Serialize vec) = vec := by
  induction vec with
  | nil => rfl
  | cons v rest ih =>
      have hv : v < 4294967296 := h v (by simp)
      have hrest : ∀ x ∈ rest, x < 4294967296 := fun x hx => h x (by simp [hx])
      simp only [Serialize, List.flatMap_cons, List.cons_append, List.nil_append,
        deserializeChunks_append4]
      rw [le_byte_recombine v hv]
      exact congrArg (v :: ·) (ih hrest)

/-- C5. For every finite float32 sequence `v` (modelled by its list of 32-bit
patterns), including the empty one, `Deserialize (Serialize v)` succeeds and
returns `v`; and `Deserialize b` fails exactly when the byte length of `b` is
not a multiple of 4. -/
theorem serialize_deserialize_roundtrip (v : List Nat) (hv : ∀ x ∈ v, x < 4294967296) :
    Deserialize (Serialize v) = some v ∧
      ∀ b : List Nat, Deserialize b = none ↔ b.length % 4 ≠ 0 := by
  constructor
  · have hlen : (Serialize v).length % 4 = 0 := by
      rw [serialize_length]; omega
    simp only [Deserialize, hlen]
    simp [deserializeChunks_serialize v hv]
  · intro b
    by_cases hb : b.length % 4 = 0 <;> simp [Deserialize, hb]

theorem serialize_deserialize_roundtrip_witness :
    (∀ x ∈ [0, 1, 1056964608, 4294967295], x < 4294967296) ∧
      Deserialize (Serialize [0, 1, 1056964608, 4294967295]) =
          some [0, 1, 1056964608, 4294967295] ∧
        ∀ b : List Nat, Deserialize b = none ↔ b.length % 4 ≠ 0 :=
  ⟨by decide, serialize_deserialize_roundtrip [0, 1, 1056964608, 4294967295] (by decide)⟩

/-! ## Lemmas for cosine similarity -/

theorem normSq_nonneg (a : List ℚ) : 0 ≤ normSq a := by
  induction a with
  | nil => simp [normSq]
  | cons x rest ih =>
      simp only [normSq, List.map_cons, List.sum_cons] at ih ⊢
      nlinarith [mul_self_nonneg x]

theorem normSq_eq_zero_of_all_zero (a : List ℚ) (h : ∀ x ∈ a, x = 0) : normSq a = 0 := by
  induction a with
  | nil => rfl
  | cons x rest ih =>
      have hx : x = 0 := h x (by simp)
      have hr : ∀ x ∈ rest, x = 0 := fun y hy => h y (by simp [hy])
      simp [normSq, hx, ih hr]
      simpa [normSq] using ih hr

/-- C6. `Cosine` returns exactly 0 (a normal return value) whenever either
vector is empty, the lengths differ, or either vector is all-zero; and
whenever none of the guard conditions holds — so the final division is
actually performed — the denominator `sqrt na * sqrt nb` is nonzero. -/
theorem cosine_degenerate_zero (a b : List ℚ) :
    ((a = [] ∨ b = [] ∨ a.length ≠ b.length ∨ (∀ x ∈ a, x = 0) ∨ (∀ x ∈ b, x = 0)) →
        Cosine a b = 0) ∧
      (¬(a.length = 0 ∨ b.length = 0 ∨ a.length ≠ b.length) →
        ¬(normSq a = 0 ∨ normSq b = 0) →
          Real.sqrt (normSq a) * Real.sqrt (normSq b) ≠ 0) := by
  constructor
  · intro h
    unfold Cosine
    by_cases hlen : a.length = 0 ∨ b.length = 0 ∨ a.length ≠ b.length
    · rw [if_pos hlen]
    · rw [if_neg hlen]
      have hz : normSq a = 0 ∨ normSq b = 0 := by
        rcases h with h | h | h | h | h
        · exact absurd (Or.inl (by simp [h])) hlen
        · exact absurd (Or.inr (Or.inl (by simp [h]))) hlen
        · exact absurd (Or.inr (Or.inr h)) hlen
        · exact Or.inl (normSq_eq_zero_of_all_zero a h)
        · exact Or.inr (normSq_eq_zero_of_all_zero b h)
      rw [if_pos hz]
  · intro _ hn
    push_neg at hn
    have ha : (0 : ℝ) < Real.sqrt (normSq a) := by
      rw [Real.sqrt_pos]
      exact_mod_cast lt_of_le_of_ne (normSq_nonneg a) (Ne.symm (by exact_mod_cast hn.1))
    have hb : (0 : ℝ) < Real.sqrt (normSq b) := by
      rw [Real.sqrt_pos]
      exact_mod_cast lt_of_le_of_ne (normSq_nonneg b) (Ne.symm (by exact_mod_cast hn.2))
    positivity

theorem cosine_degenerate_zero_witness :
    ((∀ x ∈ [(0 : ℚ), 0], x = 0) ∧ Cosine [(0 : ℚ), 0] [(1 : ℚ), 2] = 0) ∧
      Cosine [] [(1 : ℚ)] = 0 :=
  ⟨⟨by decide, (cosine_degenerate_zero [(0 : ℚ), 0] [(1 : ℚ), 2]).1
      (Or.inr (Or.inr (Or.inr (Or.inl (by decide)))))⟩,
    (cosine_degenerate_zero [] [(1 : ℚ)]).1 (Or.inl rfl)⟩

/-! ## Records and fingerprints — `internal/ingest/ingest.go` -/

/-- Model of the `record` struct built by `buildRecord`: identifier, metadata
map (association list with unique keys, one entry per resolved metadata
column), ordered embeddable text parts, optional coordinates. -/
structure Record where
  id : String
  metadata : List (String × String)
  textParts : List String
  lat : Option ℚ
  lng : Option ℚ
deriving DecidableEq, Repr

/-- Decimal digit string of a natural number (most significant first). -/
def natRepr (n : Nat) : String :=
  if n = 0 then "0" else ⟨(Nat.digits 10 n).reverse.map Nat.digitChar⟩

/-- Signed decimal digit string of an integer. -/
def intRepr (i : Int) : String :=
  if i < 0 then "-" ++ natRepr i.natAbs else natRepr i.natAbs

/-- Canonical rendering of a rational: `num` when the denominator is 1, else
`num/den`. -/
def ratRepr (q : ℚ) : String :=
  if q.den = 1 then intRepr q.num else intRepr q.num ++ "/" ++ natRepr q.den

/-- Model of `formatFloat`: the empty-string sentinel for an absent value,
otherwise an injective textual rendering of the number. `strconv.FormatFloat
(v, 'f', -1, 64)` renders a float64 as its shortest round-tripping decimal,
an injective encoding whose output never contains `|`; with float64 values
modelled as rationals, the canonical rational rendering has the same two
properties. -/
def formatFloat : Option ℚ → String
  | none => ""
  | some q => ratRepr q

/-- Keys of a metadata map, sorted as by `sort.Strings`. -/
def sortedKeys (md : List (String × String)) : List String :=
  List.insertionSort (fun a b => strLEb a b = true) (md.map Prod.fst)

/-- Map lookup with Go's zero-value default, as in `rec.Metadata[k]`. -/
def lookupMeta (md : List (String × String)) (k : String) : String :=
  (md.lookup k).getD ""

/-- The `parts` list assembled by `hashRecord`: namespace, id, the joined
text (only when there is at least one part), the `k=v` metadata entries in
sorted key order, and the two formatted coordinates. -/
def hashParts (dataset : String) (rec : Record) : List String :=
  [dataset, rec.id]
    ++ (if rec.textParts.length > 0 then [goJoin "\n" rec.textParts] else [])
    ++ (sortedKeys rec.metadata).map (fun k => k ++ "=" ++ lookupMeta rec.metadata k)
    ++ [formatFloat rec.lat, formatFloat rec.lng]

/-- Model of `hashRecord`. The source hashes `strings.Join(parts, "|")` with
SHA-256 and stores the hex digest; the digest is modelled by its preimage
string (two fingerprints are equal iff the preimages are — SHA-256 collision
freeness is an assumption outside the model, and every claim about
fingerprints concerns the preimage construction). -/
def hashRecord (dataset : String) (rec : Record) : String :=
  goJoin "|" (hashParts dataset rec)

/-- Model of `embeddingText`: the text parts joined by newlines. -/
def embeddingText (rec : Record) : String :=
  goJoin "\n" rec.textParts

/-! ## The dataset store — the four relations touched by `upsertRecord`

SQLite tables are modelled as association lists keyed by `(dataset, id)`;
the `records_fts` / `records_rtree` tables are keyed in the source by the
record's `rowid`, which is in bijection with `(dataset, id)` via the
records table's unique key, so the same key type models them. -/

/-- First-match association-list lookup (model of a SQL point `SELECT` /
Go map read). -/
def alLookup {κ ν : Type} [DecidableEq κ] (k : κ) : List (κ × ν) → Option ν
  | [] => none
  | (k', v) :: rest => if k' = k then some v else alLookup k rest

/-- Replace-or-append association-list update (model of `INSERT ... ON
CONFLICT DO UPDATE` / `INSERT OR REPLACE`). -/
def alUpsert {κ ν : Type} [DecidableEq κ] (k : κ) (v : ν) : List (κ × ν) → List (κ × ν)
  | [] => [(k, v)]
  | (k', v') :: rest => if k' = k then (k, v) :: rest else (k', v') :: alUpsert k v rest

/-- Association-list deletion (model of `DELETE ... WHERE key = ?`). -/
def alDelete {κ ν : Type} [DecidableEq κ] (k : κ) : List (κ × ν) → List (κ × ν)
  | [] => []
  | (k', v') :: rest => if k' = k then alDelete k rest else (k', v') :: alDelete k rest

/-- A row of the primary `records` relation: the metadata document (the
source stores `json.Marshal` of the map, which renders entries in sorted key
order; modelled as the sorted entry list), nullable coordinates, and the
fingerprint. -/
structure RecordRow where
  data : List (String × String)
  lat : Option ℚ
  lng : Option ℚ
  hash : String
deriving DecidableEq, Repr

/-- The metadata document stored in `records.data`: entries in sorted key
order, as produced by `json.Marshal` on a Go map. -/
def metadataJSON (md : List (String × String)) : List (String × String) :=
  (sortedKeys md).map (fun k => (k, lookupMeta md k))

/-- The four logical relations of one store: primary records, vectors
(serialized blobs), lexical entries, spatial entries (degenerate rectangles
are represented by their `(lat, lng)` point). -/
structure State where
  records : List ((String × String) × RecordRow)
  vecs : List ((String × String) × List Nat)
  fts : List ((String × String) × String)
  rtree : List ((String × String) × (ℚ × ℚ))
deriving DecidableEq

/-- The empty store. -/
def State.empty : State := ⟨[], [], [], []⟩

/-- Model of `upsertRecord` (ingest.go lines 417-494): upsert the primary
record with its fingerprint; delete the lexical entry and re-insert it iff
the joined text is non-blank; replace the spatial entry iff both coordinates
are present, else delete it; replace the serialized embedding iff a vector
was produced, else delete it. All four updates happen in one transaction;
the model applies them to one `State`. -/
def upsertRecord (dataset : String) (rec : Record) (hash : String)
    (embedding : List Nat) (s : State) : State :=
  let key := (dataset, rec.id)
  let s1 : State :=
    { s with records := alUpsert key ⟨metadataJSON rec.metadata, rec.lat, rec.lng, hash⟩ s.records }
  let text := embeddingText rec
  let s2 : State :=
    { s1 with fts :=
        if trimSpace text ≠ "" then alUpsert key text (alDelete key s1.fts)
        else alDelete key s1.fts }
  let s3 : State :=
    { s2 with rtree :=
        match rec.lat, rec.lng with
        | some la, some ln => alUpsert key (la, ln) s2.rtree
        | _, _ => alDelete key s2.rtree }
  { s3 with vecs :=
      if embedding.length > 0 then alUpsert key (Serialize embedding) s3.vecs
      else alDelete key s3.vecs }

/-- Model of `shouldSkip`: a row is skipped iff a record row is stored for
`(dataset, id)` and its fingerprint equals the newly computed one. -/
def shouldSkip (s : State) (dataset id hash : String) : Bool :=
  match alLookup (dataset, id) s.records with
  | none => false
  | some row => row.hash == hash

/-- One iteration of the row loop of `Run` (ingest.go lines 118-166), acting
on the store state paired with the number of encoder calls made so far: hash
the row; skip it when `shouldSkip` fires; otherwise call the encoder exactly
when the trimmed embeddable text is non-blank and apply `upsertRecord`. The
encoder is modelled as a total function `String → List Nat` (an encoder
failure aborts the whole run, and the claims concern completed runs). -/
def runStep (enc : String → List Nat) (dataset : String)
    (acc : State × Nat) (rec : Record) : State × Nat :=
  let hash := hashRecord dataset rec
  if shouldSkip acc.1 dataset rec.id hash then acc
  else
    let text := embeddingText rec
    let embedding := if trimSpace text ≠ "" then enc text else []
    let calls : Nat := if trimSpace text ≠ "" then 1 else 0
    (upsertRecord dataset rec hash embedding acc.1, acc.2 + calls)

/-- Model of `Run` over the parsed rows of the CSV input: fold the per-row
step over the row list, returning the final state and the number of encoder
calls. Batch commits (every `BatchSize` rows) only mark transaction
boundaries; a run that completes commits every row, so the final stored
state does not depend on the batch size and is modelled directly. -/
def Run (enc : String → List Nat) (dataset : String) (recs : List Record)
    (s : State) : State × Nat :=
  recs.foldl (runStep enc dataset) (s, 0)

/-- Fingerprint stored for a key, as read by `shouldSkip`'s `SELECT hash`. -/
def storedHash (s : State) (k : String × String) : Option String :=
  (alLookup k s.records).map RecordRow.hash

/-! ## Association-list lemmas -/

theorem alLookup_alUpsert_self {κ ν : Type} [DecidableEq κ] (k : κ) (v : ν) (l : List (κ × ν)) :
    alLookup k (alUpsert k v l) = some v := by
  induction l with
  | nil => simp [alLookup, alUpsert]
  | cons p rest ih =>
      by_cases h : p.1 = k
      · simp [alUpsert, alLookup, h]
      · simpa [alUpsert, alLookup, h] using ih

theorem alLookup_alUpsert_ne {κ ν : Type} [DecidableEq κ] (k k' : κ) (v : ν)
    (l : List (κ × ν)) (h : k' ≠ k) : alLookup k' (alUpsert k v l) = alLookup k' l := by
  induction l with
  | nil => simp [alLookup, alUpsert, Ne.symm h]
  | cons p rest ih =>
      by_cases hp : p.1 = k
      · subst hp
        simp [alUpsert, alLookup, Ne.symm h]
      · simp only [alUpsert, if_neg hp, alLookup]
        by_cases hp' : p.1 = k' <;> simp [hp', ih]

theorem alLookup_alDelete_self {κ ν : Type} [DecidableEq κ] (k : κ) (l : List (κ × ν)) :
    alLookup k (alDelete k l) = none := by
  induction l with
  | nil => simp [alDelete, alLookup]
  | cons p rest ih =>
      by_cases h : p.1 = k
      · simpa [alDelete, h] using ih
      · simpa [alDelete, alLookup, h] using ih

theorem alLookup_alDelete_ne {κ ν : Type} [DecidableEq κ] (k k' : κ)
    (l : List (κ × ν)) (h : k' ≠ k) : alLookup k' (alDelete k l) = alLookup k' l := by
  induction l with
  | nil => simp [alDelete]
  | cons p rest ih =>
      by_cases hp : p.1 = k
      · subst hp
        simp [alDelete, alLookup, Ne.symm h, ih]
      · simp only [alDelete, if_neg hp, alLookup]
        by_cases hp' : p.1 = k' <;> simp [hp', ih]

/-! ## Whitespace lemmas -/

theorem dropWhile_all_iff (p : Char → Bool) (l : List Char) :
    (∀ c ∈ l.dropWhile p, p c = true) ↔ ∀ c ∈ l, p c = true := by
  constructor
  · intro h c hc
    rcases List.mem_append.1 (by rw [List.takeWhile_append_dropWhile] at *; exact hc :
        c ∈ l.takeWhile p ++ l.dropWhile p) with h' | h'
    · exact List.mem_takeWhile_imp h'
    · exact h c h'
  · intro h c hc
    exact h c ((l.dropWhile_sublist p).subset hc)

theorem trimChars_eq_nil_iff (l : List Char) :
    trimChars l = [] ↔ ∀ c ∈ l, isSpaceChar c = true := by
  unfold trimChars
  rw [List.reverse_eq_nil_iff, List.dropWhile_eq_nil_iff]
  simp only [List.mem_reverse]
  exact dropWhile_all_iff isSpaceChar l

theorem trimSpace_eq_empty_iff (s : String) :
    trimSpace s = "" ↔ ∀ c ∈ s.data, isSpaceChar c = true := by
  rw [← trimChars_eq_nil_iff s.data]
  constructor
  · intro h
    have := congrArg String.data h
    simpa [trimSpace] using this
  · intro h
    apply String.ext
    simpa [trimSpace] using h

theorem mem_goJoin_data_head (p : String) (rest : List String) (c : Char)
    (hc : c ∈ p.data) : c ∈ (goJoin "\n" (p :: rest)).data := by
  cases rest with
  | nil => simpa [goJoin] using hc
  | cons q rest' => simp [goJoin, String.data_append, hc]

/-- For records produced by `buildRecord` — whose text parts are trimmed and
non-blank — the source's guard `strings.TrimSpace(text) != ""` coincides with
plain non-emptiness of the joined text, and both with the presence of at
least one text part. -/
theorem trim_embeddingText (rec : Record) (wf : ∀ p ∈ rec.textParts, trimSpace p ≠ "") :
    (trimSpace (embeddingText rec) ≠ "" ↔ embeddingText rec ≠ "")
      ∧ (embeddingText rec ≠ "" ↔ rec.textParts ≠ []) := by
  cases hp : rec.textParts with
  | nil =>
      unfold embeddingText
      rw [hp]
      simp [goJoin, trimSpace, trimChars]
  | cons p rest =>
      have hpwf : trimSpace p ≠ "" := wf p (by rw [hp]; simp)
      have hex : ∃ c ∈ p.data, ¬isSpaceChar c = true := by
        by_contra hall
        push_neg at hall
        exact hpwf ((trimSpace_eq_empty_iff p).2 (by simpa using hall))
      rcases hex with ⟨c, hc, hcs⟩
      have hmem : c ∈ (goJoin "\n" (p :: rest)).data := mem_goJoin_data_head p rest c hc
      have h1 : trimSpace (embeddingText rec) ≠ "" := by
        unfold embeddingText
        rw [hp]
        intro h
        exact hcs ((trimSpace_eq_empty_iff _).1 h c hmem)
      have h2 : embeddingText rec ≠ "" := by
        unfold embeddingText
        rw [hp]
        intro h
        rw [h] at hmem
        simp at hmem
      exact ⟨by simp [h1, h2], by simp [h2, hp]⟩

/-! ## The per-row skip rule and its frame property -/

theorem shouldSkip_of_storedHash (s : State) (d id h : String)
    (hs : storedHash s (d, id) = some h) : shouldSkip s d id h = true := by
  unfold storedHash at hs
  rcases Option.map_eq_some'.1 hs with ⟨row, hrow, hh⟩
  simp [shouldSkip, hrow, hh]

theorem runStep_skip (enc : String → List Nat) (d : String) (s : State) (n : Nat)
    (rec : Record) (h : storedHash s (d, rec.id) = some (hashRecord d rec)) :
    runStep enc d (s, n) rec = (s, n) := by
  have hskip := shouldSkip_of_storedHash s d rec.id (hashRecord d rec) h
  simp [runStep, hskip]

/-- C2. For a row whose stored fingerprint exists and equals the newly
computed one, the pipeline makes no encoder call and performs no write: the
records, vectors, lexical and spatial relations and the encoder-call count
are all left exactly as they were. -/
theorem skip_rule_no_writes (enc : String → List Nat) (d : String) (s : State) (n : Nat)
    (rec : Record) (h : storedHash s (d, rec.id) = some (hashRecord d rec)) :
    (runStep enc d (s, n) rec).1.records = s.records
    ∧ (runStep enc d (s, n) rec).1.vecs = s.vecs
    ∧ (runStep enc d (s, n) rec).1.fts = s.fts
    ∧ (runStep enc d (s, n) rec).1.rtree = s.rtree
    ∧ (runStep enc d (s, n) rec).2 = n := by
  rw [runStep_skip enc d s n rec h]
  exact ⟨rfl, rfl, rfl, rfl, rfl⟩

theorem skip_rule_no_writes_witness :
    storedHash
        ⟨[(("d", "k"), ⟨[], none, none, hashRecord "d" ⟨"k", [], ["a"], none, none⟩⟩)], [], [], []⟩
        ("d", (⟨"k", [], ["a"], none, none⟩ : Record).id)
        = some (hashRecord "d" ⟨"k", [], ["a"], none, none⟩)
      ∧ (runStep (fun _ => [1]) "d"
          (⟨[(("d", "k"), ⟨[], none, none, hashRecord "d" ⟨"k", [], ["a"], none, none⟩⟩)], [], [], []⟩, 5)
          ⟨"k", [], ["a"], none, none⟩).2 = 5 :=
  ⟨rfl,
    (skip_rule_no_writes (fun _ => [1]) "d"
      ⟨[(("d", "k"), ⟨[], none, none, hashRecord "d" ⟨"k", [], ["a"], none, none⟩⟩)], [], [], []⟩ 5
      ⟨"k", [], ["a"], none, none⟩ rfl).2.2.2.2⟩

/-! ## The per-row upsert invariant -/

/-- C3. After every per-row upsert: the lexical entry for the record exists —
with the joined text as its content — iff the joined embeddable text is
non-empty; the spatial entry exists — carrying the coordinate point — iff
both lat and lng are present; the embedding exists iff a (non-empty) vector
was produced; and the primary record exists. In each "absent" case the entry
is deleted even if a previous ingest had created it, since the state `s` is
arbitrary. -/
theorem upsert_derived_invariant (d : String) (rec : Record) (hash : String)
    (emb : List Nat) (s : State) (wf : ∀ p ∈ rec.textParts, trimSpace p ≠ "") :
    (alLookup (d, rec.id) (upsertRecord d rec hash emb s).fts
        = if embeddingText rec ≠ "" then some (embeddingText rec) else none)
    ∧ (alLookup (d, rec.id) (upsertRecord d rec hash emb s).rtree
        = match rec.lat, rec.lng with
          | some la, some ln => some (la, ln)
          | _, _ => none)
    ∧ ((alLookup (d, rec.id) (upsertRecord d rec hash emb s).vecs).isSome ↔ emb ≠ [])
    ∧ (alLookup (d, rec.id) (upsertRecord d rec hash emb s).records).isSome := by
  refine ⟨?_, ?_, ?_, ?_⟩
  · show alLookup (d, rec.id)
        (if trimSpace (embeddingText rec) ≠ "" then
          alUpsert (d, rec.id) (embeddingText rec) (alDelete (d, rec.id) s.fts)
        else alDelete (d, rec.id) s.fts) = _
    rcases trim_embeddingText rec wf with ⟨htr, _⟩
    by_cases h : embeddingText rec = ""
    · have htr0 : trimSpace (embeddingText rec) = "" := by rw [h]; rfl
      rw [if_neg (by simp [htr0]), if_neg (by simp [h])]
      exact alLookup_alDelete_self _ _
    · rw [if_pos (htr.2 h), if_pos h]
      exact alLookup_alUpsert_self _ _ _
  · show alLookup (d, rec.id)
        (match rec.lat, rec.lng with
          | some la, some ln => alUpsert (d, rec.id) (la, ln) _
          | _, _ => alDelete (d, rec.id) _) = _
    match rec.lat, rec.lng with
    | some la, some ln => exact alLookup_alUpsert_self _ _ _
    | some la, none => exact alLookup_alDelete_self _ _
    | none, some ln => exact alLookup_alDelete_self _ _
    | none, none => exact alLookup_alDelete_self _ _
  · show (alLookup (d, rec.id)
        (if emb.length > 0 then alUpsert (d, rec.id) (Serialize emb) _
          else alDelete (d, rec.id) _)).isSome ↔ _
    by_cases h : emb = []
    · rw [if_neg (by simp [h])]
      simp [alLookup_alDelete_self, h]
    · rw [if_pos (by simpa [List.length_pos] using h)]
      simp [alLookup_alUpsert_self, h]
  · show (alLookup (d, rec.id) (alUpsert (d, rec.id) _ s.records)).isSome
    simp [alLookup_alUpsert_self]

theorem upsert_derived_invariant_witness :
    (∀ p ∈ [" hi "], trimSpace p ≠ "")
      ∧ (alLookup ("d", (⟨"k", [("id", "k")], [" hi "], some 1, none⟩ : Record).id)
          (upsertRecord "d" ⟨"k", [("id", "k")], [" hi "], some 1, none⟩ "h" [7]
            State.empty).vecs).isSome :=
  ⟨by decide,
    ((upsert_derived_invariant "d" ⟨"k", [("id", "k")], [" hi "], some 1, none⟩ "h" [7]
        State.empty (by decide)).2.2.1).2 (by decide)⟩

/-! ## Run-level fingerprint lemmas -/

theorem upsert_storedHash_self (d : String) (rec : Record) (hash : String)
    (emb : List Nat) (s : State) :
    storedHash (upsertRecord d rec hash emb s) (d, rec.id) = some hash := by
  unfold upsertRecord storedHash
  simp [alLookup_alUpsert_self]

theorem upsert_storedHash_ne (d : String) (rec : Record) (hash : String)
    (emb : List Nat) (s : State) (k : String × String) (hk : k ≠ (d, rec.id)) :
    storedHash (upsertRecord d rec hash emb s) k = storedHash s k := by
  unfold upsertRecord storedHash
  simp [alLookup_alUpsert_ne _ _ _ _ hk]

theorem runStep_stored_self (enc : String → List Nat) (d : String)
    (acc : State × Nat) (rec : Record) :
    storedHash (runStep enc d acc rec).1 (d, rec.id) = some (hashRecord d rec) := by
  unfold runStep
  by_cases hskip : shouldSkip acc.1 d rec.id (hashRecord d rec) = true
  · simp only [hskip, if_true]
    unfold shouldSkip at hskip
    cases hrow : alLookup (d, rec.id) acc.1.records with
    | none => rw [hrow] at hskip; simp at hskip
    | some row =>
        rw [hrow] at hskip
        simp only [beq_iff_eq] at hskip
        unfold storedHash
        rw [hrow]
        simp [hskip]
  · simp only [hskip, if_false, Bool.false_eq_true]
    exact upsert_storedHash_self d rec (hashRecord d rec) _ acc.1

theorem runStep_stored_frame (enc : String → List Nat) (d : String)
    (acc : State × Nat) (rec : Record) (k : String × String) (hk : k ≠ (d, rec.id)) :
    storedHash (runStep enc d acc rec).1 k = storedHash acc.1 k := by
  unfold runStep
  by_cases hskip : shouldSkip acc.1 d rec.id (hashRecord d rec) = true
  · simp only [hskip, if_true]
  · simp only [hskip, if_false, Bool.false_eq_true]
    exact upsert_storedHash_ne d rec (hashRecord d rec) _ acc.1 k hk

theorem foldl_preserve_storedHash (enc : String → List Nat) (d : String) :
    ∀ (recs : List Record) (acc : State × Nat) (k : String × String) (h : String),
      storedHash acc.1 k = some h →
      (∀ r ∈ recs, (d, r.id) = k → hashRecord d r = h) →
      storedHash (recs.foldl (runStep enc d) acc).1 k = some h
  | [], _, _, _, hs, _ => hs
  | r0 :: rest, acc, k, h, hs, hrs => by
      rw [List.foldl_cons]
      apply foldl_preserve_storedHash enc d rest
      · by_cases hk : (d, r0.id) = k
        · rw [← hk, runStep_stored_self, hrs r0 (by simp) hk]
        · rw [runStep_stored_frame enc d acc r0 k (fun he => hk he.symm)]
          exact hs
      · intro r hr hk
        exact hrs r (by simp [hr]) hk

theorem run_establishes_storedHash (enc : String → List Nat) (d : String) :
    ∀ (recs : List Record) (acc : State × Nat),
      (∀ r1 ∈ recs, ∀ r2 ∈ recs, r1.id = r2.id → hashRecord d r1 = hashRecord d r2) →
      ∀ r ∈ recs, storedHash (recs.foldl (runStep enc d) acc).1 (d, r.id) = some (hashRecord d r)
  | [], _, _, r, hr => absurd hr (by simp)
  | r0 :: rest, acc, hdup, r, hr => by
      rw [List.foldl_cons]
      rcases List.mem_cons.1 hr with h | h
      · subst h
        apply foldl_preserve_storedHash enc d rest
        · exact runStep_stored_self enc d acc r
        · intro r' hr' hk
          exact hdup r' (by simp [hr']) r (by simp) (by simpa using congrArg Prod.snd hk)
      · exact run_establishes_storedHash enc d rest (runStep enc d acc r0)
          (fun r1 h1 r2 h2 => hdup r1 (by simp [h1]) r2 (by simp [h2])) r h

theorem run_all_skip (enc : String → List Nat) (d : String) :
    ∀ (recs : List Record) (s : State) (n : Nat),
      (∀ r ∈ recs, storedHash s (d, r.id) = some (hashRecord d r)) →
      recs.foldl (runStep enc d) (s, n) = (s, n)
  | [], _, _, _ => rfl
  | r0 :: rest, s, n, h => by
      rw [List.foldl_cons, runStep_skip enc d s n r0 (h r0 (by simp))]
      exact run_all_skip enc d rest s n (fun r hr => h r (by simp [hr]))

/-- C1 (amended). Provided any two input rows that share an identifier have
equal fingerprints — in particular whenever row identifiers are pairwise
distinct — re-ingesting the same input into the same namespace is idempotent:
after the first run every row's computed fingerprint equals the stored
fingerprint, so the second run skips every row, performs zero encoder calls
and leaves the stored state (records, vectors, lexical entries, spatial
entries) exactly as the first run left it. -/
theorem ingest_idempotent (enc : String → List Nat) (d : String)
    (recs : List Record) (s : State)
    (hdup : ∀ r1 ∈ recs, ∀ r2 ∈ recs, r1.id = r2.id → hashRecord d r1 = hashRecord d r2) :
    (∀ r ∈ recs, storedHash (Run enc d recs s).1 (d, r.id) = some (hashRecord d r))
    ∧ Run enc d recs (Run enc d recs s).1 = ((Run enc d recs s).1, 0) := by
  have h1 := run_establishes_storedHash enc d recs (s, 0) hdup
  exact ⟨h1, run_all_skip enc d recs (Run enc d recs s).1 0 h1⟩

/-- C1 is false as stated: for the two-row input that ingests identifier "k"
first with text "a" and then with text "b", the first row's computed
fingerprint differs from the stored one on the second run (the stored
fingerprint is the second row's), so the second run performs 2 encoder
calls, not 0. -/
theorem ingest_idempotent_counterexample :
    (Run (fun _ => [1]) "default"
        [⟨"k", [("id", "k")], ["a"], none, none⟩, ⟨"k", [("id", "k")], ["b"], none, none⟩]
        (Run (fun _ => [1]) "default"
          [⟨"k", [("id", "k")], ["a"], none, none⟩, ⟨"k", [("id", "k")], ["b"], none, none⟩]
          State.empty).1).2 = 2
      ∧ (2 : Nat) ≠ 0 :=
  ⟨by decide, by decide⟩

theorem ingest_idempotent_witness :
    (∀ r1 ∈ [(⟨"k", [("id", "k")], ["a"], none, none⟩ : Record)],
      ∀ r2 ∈ [(⟨"k", [("id", "k")], ["a"], none, none⟩ : Record)],
        r1.id = r2.id → hashRecord "d" r1 = hashRecord "d" r2)
    ∧ Run (fun _ => [2]) "d" [⟨"k", [("id", "k")], ["a"], none, none⟩]
        (Run (fun _ => [2]) "d" [⟨"k", [("id", "k")], ["a"], none, none⟩] State.empty).1
      = ((Run (fun _ => [2]) "d" [⟨"k", [("id", "k")], ["a"], none, none⟩] State.empty).1, 0) :=
  ⟨by
    intro r1 h1 r2 h2 _
    simp only [List.mem_singleton] at h1 h2
    rw [h1, h2],
  (ingest_idempotent (fun _ => [2]) "d" [⟨"k", [("id", "k")], ["a"], none, none⟩] State.empty
    (by
      intro r1 h1 r2 h2 _
      simp only [List.mem_singleton] at h1 h2
      rw [h1, h2])).2⟩

/-! ## Ranked retrieval — `VectorSearch`

One scored candidate row, the `Result` struct of the search package. The
`Score` field holds the cosine similarity computed for the candidate before
the sort/truncate stage (`r.Score = vector.Cosine(qvec, vec)`); quantifying
over all `List Result` quantifies over every store state and query vector. -/
structure Result where
  Dataset : String
  ID : String
  Fields : List (String × String)
  Score : ℚ
  Lat : Option ℚ
  Lng : Option ℚ
deriving DecidableEq, Repr

/-- The non-strict order in which `VectorSearch` emits results: higher score
first, ties by ascending identifier. This is the complement of the strict
`less` closure passed to `sort.Slice` (`¬ less b a`): score descending, ties
broken by `ID` ascending. -/
def resultLE (a b : Result) : Prop :=
  b.Score < a.Score ∨ (a.Score = b.Score ∧ a.ID ≤ b.ID)

instance : DecidableRel resultLE := fun a b => by
  unfold resultLE
  infer_instance

instance : IsTotal Result resultLE := ⟨by
  intro a b
  rcases lt_trichotomy a.Score b.Score with h | h | h
  · exact Or.inr (Or.inl h)
  · rcases le_total a.ID b.ID with h' | h'
    · exact Or.inl (Or.inr ⟨h, h'⟩)
    · exact Or.inr (Or.inr ⟨h.symm, h'⟩)
  · exact Or.inl (Or.inl h)⟩

instance : IsTrans Result resultLE := ⟨by
  intro a b c hab hbc
  rcases hab with h1 | ⟨h1, h1'⟩ <;> rcases hbc with h2 | ⟨h2, h2'⟩
  · exact Or.inl (h2.trans h1)
  · exact Or.inl (h2 ▸ h1)
  · exact Or.inl (h1 ▸ h2)
  · exact Or.inr ⟨h1.trans h2, h1'.trans h2'⟩⟩

/-- The sort stage of `VectorSearch`. The source sorts with `sort.Slice`,
which is not stable; but whenever the candidate identifiers are pairwise
distinct — as they are, coming from a relation with unique key
`(dataset, id)` — the comparator is a strict total order, the sorted
permutation is unique, and any sorting algorithm produces this one. -/
def sortResults (rs : List Result) : List Result :=
  List.insertionSort resultLE rs

/-- The normalize/sort/truncate stage of `VectorSearch`: a non-positive
`topK` defaults to 10; candidates are sorted, then truncated to `topK`
entries only when more than `topK` candidates were scored. -/
def rankResults (rs : List Result) (topK : Int) : List Result :=
  let k := if topK ≤ 0 then 10 else topK
  let sorted := sortResults rs
  if Int.ofNat sorted.length > k then sorted.take k.toNat else sorted

/-- C7. For every candidate set (hence every store state and query vector)
with pairwise-distinct identifiers and every positive limit K: the output is
the first K elements of the full ranking of all candidates, its length is
min(K, number of candidates), the full ranking is a permutation of all
candidates — so truncation happens only after every candidate is scored and
ranked — and the ranking is strictly sorted by descending score with ties
broken by ascending identifier. -/
theorem vectorSearch_ranking (rs : List Result) (k : Int) (hk : 0 < k)
    (hids : (rs.map Result.ID).Nodup) :
    rankResults rs k = (sortResults rs).take k.toNat
    ∧ (rankResults rs k).length = min k.toNat rs.length
    ∧ (sortResults rs).Perm rs
    ∧ List.Pairwise (fun a b => b.Score < a.Score ∨ (a.Score = b.Score ∧ a.ID < b.ID))
        (sortResults rs) := by
  have hperm : (sortResults rs).Perm rs := List.perm_insertionSort resultLE rs
  have htake : rankResults rs k = (sortResults rs).take k.toNat := by
    show (if Int.ofNat (sortResults rs).length > (if k ≤ 0 then 10 else k) then
          (sortResults rs).take (if k ≤ 0 then 10 else k).toNat else sortResults rs)
        = (sortResults rs).take k.toNat
    rw [if_neg (not_le.2 hk)]
    by_cases hlen : Int.ofNat (sortResults rs).length > k
    · rw [if_pos hlen]
    · rw [if_neg hlen]
      refine (List.take_of_length_le ?_).symm
      rw [Int.ofNat_eq_natCast] at hlen
      omega
  refine ⟨htake, ?_, hperm, ?_⟩
  · rw [htake, List.length_take, hperm.length_eq]
  · have hsorted : List.Pairwise resultLE (sortResults rs) :=
      List.sorted_insertionSort resultLE rs
    have hne : List.Pairwise (fun a b : Result => a.ID ≠ b.ID) (sortResults rs) := by
      have hnd : ((sortResults rs).map Result.ID).Nodup :=
        (List.Perm.nodup_iff (hperm.map Result.ID)).2 hids
      exact (List.pairwise_map.1 hnd)
    refine (List.pairwise_and_iff.2 ⟨hsorted, hne⟩).imp ?_
    rintro a b ⟨hab, hne'⟩
    rcases hab with h | ⟨h, h'⟩
    · exact Or.inl h
    · exact Or.inr ⟨h, lt_of_le_of_ne h' hne'⟩

theorem vectorSearch_ranking_witness :
    (0 : Int) < 1
      ∧ (([⟨"d", "a", [], 1, none, none⟩, ⟨"d", "b", [], 0, none, none⟩] :
          List Result).map Result.ID).Nodup
      ∧ (rankResults [⟨"d", "a", [], 1, none, none⟩, ⟨"d", "b", [], 0, none, none⟩] 1).length
        = min (1 : Int).toNat
            ([(⟨"d", "a", [], 1, none, none⟩ : Result), ⟨"d", "b", [], 0, none, none⟩].length) :=
  ⟨by decide, by decide,
    (vectorSearch_ranking [⟨"d", "a", [], 1, none, none⟩, ⟨"d", "b", [], 0, none, none⟩] 1
      (by decide) (by decide)).2.1⟩

/-! ## Metadata equality filters -/

/-- One equality filter, the `search.Filter` struct: a metadata field name
and the value it must equal. -/
structure Filter where
  Field : String
  Value : String
deriving DecidableEq, Repr

/-- Modelled from the spec: the current `internal/search` filter application
is not among the provided sources (only its callers are), and the spec says
"Reject a record if any filter's field is absent from its metadata map or
its value does not match exactly (case-sensitive string equality)". A record
passes iff every filter's field is present and its stored value is exactly
the filter value. -/
def matchesFilters (fields : List (String × String)) (fs : List Filter) : Bool :=
  fs.all (fun f =>
    match fields.lookup f.Field with
    | some v => v == f.Value
    | none => false)

/-- Modelled from the spec: candidates failing any filter are rejected
before scoring and ranking ("Enumerate … Reject … then sort and truncate"). -/
def applyFilters (rs : List Result) (fs : List Filter) : List Result :=
  rs.filter (fun r => matchesFilters r.Fields fs)

/-- Modelled from the spec: the retrieval engine under filters — reject
non-matching candidates, then rank and truncate the survivors. -/
def vectorSearchFiltered (rs : List Result) (fs : List Filter) (k : Int) : List Result :=
  rankResults (applyFilters rs fs) k

theorem mem_rankResults_subset (rs : List Result) (k : Int) (r : Result)
    (h : r ∈ rankResults rs k) : r ∈ rs := by
  unfold rankResults at h
  have hsub : r ∈ sortResults rs := by
    by_cases hlen : Int.ofNat (sortResults rs).length > (if k ≤ 0 then 10 else k)
    · rw [if_pos hlen] at h
      exact List.mem_of_mem_take h
    · rwa [if_neg hlen] at h
  exact (List.perm_insertionSort resultLE rs).subset hsub

/-- C8. Every record in the retrieval engine's returned list matches the
entire filter set exactly: for each filter, the record's metadata contains
the filtered field and its stored value is (case-sensitively) equal to the
filter value; and a record whose metadata lacks any filtered field is never
returned. -/
theorem filters_exact_match (rs : List Result) (fs : List Filter) (k : Int) :
    (∀ r ∈ vectorSearchFiltered rs fs k, ∀ f ∈ fs, r.Fields.lookup f.Field = some f.Value)
    ∧ ∀ r ∈ rs, (∃ f ∈ fs, r.Fields.lookup f.Field = none) →
        r ∉ vectorSearchFiltered rs fs k := by
  have part1 : ∀ r ∈ vectorSearchFiltered rs fs k, ∀ f ∈ fs,
      r.Fields.lookup f.Field = some f.Value := by
    intro r hr f hf
    have hmem : r ∈ applyFilters rs fs := mem_rankResults_subset _ _ _ hr
    have hmatch : matchesFilters r.Fields fs = true := (List.mem_filter.1 hmem).2
    have hall := (List.all_eq_true.1 hmatch) f hf
    cases hlk : r.Fields.lookup f.Field with
    | none => rw [hlk] at hall; simp at hall
    | some v =>
        rw [hlk] at hall
        simp only [beq_iff_eq] at hall
        rw [hall]
  refine ⟨part1, ?_⟩
  rintro r _ ⟨f, hf, hnone⟩ hrmem
  rw [part1 r hrmem f hf] at hnone
  exact Option.noConfusion hnone

theorem filters_exact_match_witness :
    (⟨"d", "1", [("cat", "x")], 1, none, none⟩ : Result) ∈
        vectorSearchFiltered [⟨"d", "1", [("cat", "x")], 1, none, none⟩] [⟨"cat", "x"⟩] 1
      ∧ (Result.Fields ⟨"d", "1", [("cat", "x")], 1, none, none⟩).lookup "cat" = some "x" :=
  ⟨by decide,
    (filters_exact_match [⟨"d", "1", [("cat", "x")], 1, none, none⟩] [⟨"cat", "x"⟩] 1).1
      ⟨"d", "1", [("cat", "x")], 1, none, none⟩ (by decide) ⟨"cat", "x"⟩ (by decide)⟩

/-! ## Column resolution — `resolveColumns` (ingest.go lines 177-299) -/

/-- A resolved column: the trimmed header (or config) name and its 0-based
position, `-1` meaning "absent". -/
structure columnIndex where
  Name : String
  Index : Int
deriving DecidableEq, Repr

/-- The resolved role mapping, the `columnIndexes` struct. -/
structure columnIndexes where
  ID : columnIndex
  Text : List columnIndex
  Metadata : List columnIndex
  Lat : columnIndex
  Lng : columnIndex
deriving DecidableEq, Repr

/-- The column configuration, the `ColumnConfig` struct. -/
structure ColumnConfig where
  ID : String
  Text : List String
  Metadata : List String
  Lat : String
  Lng : String
deriving DecidableEq, Repr

/-- The case-folded lookup map built from the header: one entry per
non-blank trimmed header cell, keyed by its lower-cased form; a later
duplicate key overwrites an earlier one, as Go map assignment does. -/
def buildLookup (header : List String) : List (String × columnIndex) :=
  header.enum.foldl
    (fun m p =>
      let trimmed := trimSpace p.2
      if trimmed = "" then m
      else alUpsert (toLowerStr trimmed) ⟨trimmed, Int.ofNat p.1⟩ m)
    []

/-- The header cells trimmed, the `normalized` slice. -/
def normalizedHeader (header : List String) : List String :=
  header.map trimSpace

/-- The `get` closure of `resolveColumns`: trim the requested name; a blank
name is an error when required, else the absent column; a non-blank name is
looked up case-insensitively, an unmatched required name is an error. -/
def getCol (lk : List (String × columnIndex)) (name : String) (required : Bool) :
    Option columnIndex :=
  let cleaned := trimSpace name
  if cleaned = "" then
    if required then none else some ⟨cleaned, -1⟩
  else
    match alLookup (toLowerStr cleaned) lk with
    | some col => some col
    | none => if required then none else some ⟨cleaned, -1⟩

/-- The `addMetadata` closure: skip absent columns and names already
present, else append (the accumulated list's name set plays the role of the
`metadataSet` map). -/
def addMeta (acc : List columnIndex) (ci : columnIndex) : List columnIndex :=
  if ci.Index < 0 then acc
  else if acc.any (fun c => c.Name = ci.Name) then acc
  else acc ++ [ci]

/-- The explicit-metadata loop: resolve each configured name (required) and
feed it to `addMeta`; any unresolved name fails the whole resolution. -/
def addMetaNamed (lk : List (String × columnIndex)) :
    List String → List columnIndex → Option (List columnIndex)
  | [], acc => some acc
  | n :: rest, acc =>
      match getCol lk n true with
      | none => none
      | some ci => addMetaNamed lk rest (addMeta acc ci)

/-- The wildcard branch: every non-blank header column becomes metadata, in
header order, first occurrence of a duplicate name winning. -/
def allHeaderMeta (header : List String) : List columnIndex :=
  (normalizedHeader header).enum.foldl
    (fun acc p => if p.2 = "" then acc else addMeta acc ⟨p.2, Int.ofNat p.1⟩)
    []

/-- The wildcard test: the metadata configuration is unspecified, or is the
single entry `*` (after trimming). -/
def metaIncludeAll : List String → Bool
  | [] => true
  | [m] => trimSpace m = "*"
  | _ => false

/-- The metadata-column selection: wildcard (unspecified or `*`) takes every
header column, an explicit list resolves each name. -/
def resolveMetadata (lk : List (String × columnIndex)) (header : List String)
    (cols : ColumnConfig) : Option (List columnIndex) :=
  if metaIncludeAll cols.Metadata then some (allHeaderMeta header)
  else addMetaNamed lk cols.Metadata []

/-- One conditional `addMetadata` call: add the column when it resolved. -/
def addMetaIfResolved (acc : List columnIndex) (ci : columnIndex) : List columnIndex :=
  if ci.Index ≥ 0 then addMeta acc ci else acc

/-- The three forced `addMetadata` calls after the configured metadata
columns: the identifier always (its index is necessarily resolved), then
lat and lng when they resolved. -/
def forcedMeta (base : List columnIndex) (idCol latCol lngCol : columnIndex) :
    List columnIndex :=
  addMetaIfResolved (addMetaIfResolved (addMeta base idCol) latCol) lngCol

/-- The skip predicate of the text-default loop: a metadata column is
excluded from the default text columns when its index is the identifier's,
or the (resolved) lat's, or the (resolved) lng's. -/
def textSkip (idCol latCol lngCol : columnIndex) (ci : columnIndex) : Prop :=
  ci.Index = idCol.Index
    ∨ (latCol.Index ≥ 0 ∧ ci.Index = latCol.Index)
    ∨ (lngCol.Index ≥ 0 ∧ ci.Index = lngCol.Index)

instance (idCol latCol lngCol ci : columnIndex) :
    Decidable (textSkip idCol latCol lngCol ci) := by
  unfold textSkip
  infer_instance

/-- The explicit-text loop: resolve each configured name (required), skip
absent results, de-duplicate by name. -/
def textNamed (lk : List (String × columnIndex)) :
    List String → List columnIndex → Option (List columnIndex)
  | [], acc => some acc
  | n :: rest, acc =>
      match getCol lk n true with
      | none => none
      | some ci =>
          if ci.Index < 0 then textNamed lk rest acc
          else if acc.any (fun c => c.Name = ci.Name) then textNamed lk rest acc
          else textNamed lk rest (acc ++ [ci])

/-- Model of `resolveColumns`: resolve the required identifier and the
optional lat/lng, collect the metadata columns, force the identifier and
the resolved coordinate columns into the metadata set, then derive the text
columns (defaulting to metadata minus identifier/lat/lng when none are
configured). -/
def resolveColumns (header : List String) (cols : ColumnConfig) : Option columnIndexes :=
  match getCol (buildLookup header) cols.ID true with
  | none => none
  | some idCol =>
    if idCol.Index < 0 then none
    else
      match getCol (buildLookup header) cols.Lat false,
            getCol (buildLookup header) cols.Lng false with
      | some latCol, some lngCol =>
          match resolveMetadata (buildLookup header) header cols with
          | none => none
          | some base =>
              if cols.Text = [] then
                some ⟨idCol,
                  (forcedMeta base idCol latCol lngCol).filter
                    (fun ci => ¬ textSkip idCol latCol lngCol ci),
                  forcedMeta base idCol latCol lngCol, latCol, lngCol⟩
              else
                match textNamed (buildLookup header) cols.Text [] with
                | none => none
                | some text =>
                    some ⟨idCol, text, forcedMeta base idCol latCol lngCol, latCol, lngCol⟩
      | _, _ => none

/-! ## Row parsing — `buildRecord` (ingest.go lines 301-353) -/

/-- The `get` closure of `buildRecord`: out-of-range or absent columns read
as the empty string, present cells are trimmed. -/
def getField (row : List String) (i : Int) : String :=
  if i < 0 then ""
  else
    match row.get? i.toNat with
    | some v => trimSpace v
    | none => ""

/-- Parse a digit character. -/
def digitVal (c : Char) : Option Nat :=
  if '0' ≤ c ∧ c ≤ '9' then some (c.toNat - 48) else none

/-- Parse a non-empty digit run into a natural number. -/
def parseNatChars : List Char → Option Nat
  | [] => none
  | l => l.foldl (fun acc c => match acc, digitVal c with
      | some n, some d => some (10 * n + d)
      | _, _ => none) (some 0)

/-- Parse `[sign] digits [. digits]` into a rational. -/
def parseDecChars (l : List Char) : Option ℚ :=
  let core : List Char → Option ℚ := fun l' =>
    match l'.splitOn '.' with
    | [intPart] => (parseNatChars intPart).map (fun n => (n : ℚ))
    | [intPart, fracPart] =>
        match parseNatChars intPart, parseNatChars fracPart with
        | some n, some f => some ((n : ℚ) + (f : ℚ) / (10 : ℚ) ^ fracPart.length)
        | _, _ => none
    | _ => none
  match l with
  | '-' :: rest => (core rest).map Neg.neg
  | '+' :: rest => core rest
  | _ => core l

/-- Model of `parseFloat`: a blank value parses to the valid "absent" state;
a non-blank value must parse as a number or the row fails. The model parses
plain decimals (`strconv.ParseFloat` additionally accepts exponent, hex and
inf/NaN forms and rounds to the nearest float64; the claims depend only on
blank-handling and parse success/failure, not on the numeric value). -/
def parseFloat (val : String) : Option (Option ℚ) :=
  if trimSpace val = "" then some none
  else
    match parseDecChars val.data with
    | some q => some (some q)
    | none => none

/-- Model of `buildRecord`: the identifier cell must exist and be non-blank;
the metadata map has one entry per resolved metadata column holding the
trimmed cell; the text parts are the non-blank trimmed cells of the text
columns in order; lat/lng parse only when their column resolved. -/
def buildRecord (row : List String) (idx : columnIndexes) : Option Record :=
  if idx.ID.Index ≥ Int.ofNat row.length ∨ idx.ID.Index < 0 then none
  else if getField row idx.ID.Index = "" then none
  else
    match (if idx.Lat.Index ≥ 0 then parseFloat (getField row idx.Lat.Index) else some none),
          (if idx.Lng.Index ≥ 0 then parseFloat (getField row idx.Lng.Index) else some none) with
    | some la, some ln =>
        some ⟨getField row idx.ID.Index,
          idx.Metadata.map (fun ci => (ci.Name, getField row ci.Index)),
          (idx.Text.map (fun ci => getField row ci.Index)).filter (fun v => trimSpace v ≠ ""),
          la, ln⟩
    | _, _ => none

/-! ## Lemmas about the column resolver -/

theorem addMeta_names_nodup (acc : List columnIndex) (ci : columnIndex)
    (h : (acc.map columnIndex.Name).Nodup) :
    ((addMeta acc ci).map columnIndex.Name).Nodup := by
  unfold addMeta
  split
  · exact h
  · split
    · exact h
    · rename_i hany
      rw [List.map_append]
      have hnotmem : ci.Name ∉ acc.map columnIndex.Name := by
        intro hmem
        rcases List.mem_map.1 hmem with ⟨c, hc, hname⟩
        exact hany (List.any_eq_true.2 ⟨c, hc, by simp [hname]⟩)
      simp [List.nodup_append, h, hnotmem]

theorem addMeta_mem_mono (acc : List columnIndex) (ci c : columnIndex) (h : c ∈ acc) :
    c ∈ addMeta acc ci := by
  unfold addMeta
  split
  · exact h
  · split
    · exact h
    · exact List.mem_append_left _ h

theorem addMeta_mem_name (acc : List columnIndex) (ci : columnIndex) (hge : ci.Index ≥ 0) :
    ∃ c ∈ addMeta acc ci, c.Name = ci.Name := by
  unfold addMeta
  rw [if_neg (by omega)]
  split
  · rename_i hany
    rcases List.any_eq_true.1 hany with ⟨c, hc, hname⟩
    exact ⟨c, hc, by simpa using hname⟩
  · exact ⟨ci, List.mem_append_right _ (by simp), rfl⟩

theorem addMetaIfResolved_names_nodup (acc : List columnIndex) (ci : columnIndex)
    (h : (acc.map columnIndex.Name).Nodup) :
    ((addMetaIfResolved acc ci).map columnIndex.Name).Nodup := by
  unfold addMetaIfResolved
  split
  · exact addMeta_names_nodup acc ci h
  · exact h

theorem addMetaIfResolved_mem_mono (acc : List columnIndex) (ci c : columnIndex)
    (h : c ∈ acc) : c ∈ addMetaIfResolved acc ci := by
  unfold addMetaIfResolved
  split
  · exact addMeta_mem_mono acc ci c h
  · exact h

theorem allHeaderMeta_aux_nodup :
    ∀ (l : List (Nat × String)) (acc : List columnIndex),
      (acc.map columnIndex.Name).Nodup →
      ((l.foldl
          (fun acc p => if p.2 = "" then acc else addMeta acc ⟨p.2, Int.ofNat p.1⟩)
          acc).map columnIndex.Name).Nodup
  | [], _, h => h
  | p :: rest, acc, h => by
      rw [List.foldl_cons]
      apply allHeaderMeta_aux_nodup rest
      by_cases hp : p.2 = ""
      · simpa [hp] using h
      · rw [if_neg hp]
        exact addMeta_names_nodup acc _ h

theorem allHeaderMeta_names_nodup (header : List String) :
    ((allHeaderMeta header).map columnIndex.Name).Nodup :=
  allHeaderMeta_aux_nodup _ [] (by simp)

theorem addMetaNamed_names_nodup (lk : List (String × columnIndex)) :
    ∀ (names : List String) (acc res : List columnIndex),
      (acc.map columnIndex.Name).Nodup → addMetaNamed lk names acc = some res →
      (res.map columnIndex.Name).Nodup
  | [], acc, res, h, heq => by
      rw [← Option.some.inj heq]
      exact h
  | n :: rest, acc, res, h, heq => by
      unfold addMetaNamed at heq
      split at heq
      · exact absurd heq (by simp)
      · exact addMetaNamed_names_nodup lk rest _ res (addMeta_names_nodup _ _ h) heq

theorem resolveMetadata_names_nodup (lk : List (String × columnIndex)) (header : List String)
    (cols : ColumnConfig) (base : List columnIndex)
    (h : resolveMetadata lk header cols = some base) :
    (base.map columnIndex.Name).Nodup := by
  unfold resolveMetadata at h
  split at h
  · rw [← Option.some.inj h]
    exact allHeaderMeta_names_nodup header
  · exact addMetaNamed_names_nodup lk cols.Metadata [] base (by simp) h

theorem forcedMeta_names_nodup (base : List columnIndex) (idCol latCol lngCol : columnIndex)
    (h : (base.map columnIndex.Name).Nodup) :
    ((forcedMeta base idCol latCol lngCol).map columnIndex.Name).Nodup :=
  addMetaIfResolved_names_nodup _ _
    (addMetaIfResolved_names_nodup _ _ (addMeta_names_nodup _ _ h))

/-- Inversion of a successful `resolveColumns`: the shape of each field of
the result and the facts guaranteed along the success path. -/
theorem resolveColumns_inv (header : List String) (cols : ColumnConfig)
    (res : columnIndexes) (hres : resolveColumns header cols = some res) :
    ∃ base,
      getCol (buildLookup header) cols.ID true = some res.ID
      ∧ ¬ res.ID.Index < 0
      ∧ getCol (buildLookup header) cols.Lat false = some res.Lat
      ∧ getCol (buildLookup header) cols.Lng false = some res.Lng
      ∧ resolveMetadata (buildLookup header) header cols = some base
      ∧ res.Metadata = forcedMeta base res.ID res.Lat res.Lng
      ∧ (cols.Text = [] →
          res.Text = (forcedMeta base res.ID res.Lat res.Lng).filter
            (fun ci => ¬ textSkip res.ID res.Lat res.Lng ci)) := by
  unfold resolveColumns at hres
  split at hres
  · exact absurd hres (by simp)
  · rename_i idCol hid
    split at hres
    · exact absurd hres (by simp)
    · rename_i hidge
      split at hres
      · rename_i latCol lngCol hlat hlng
        split at hres
        · exact absurd hres (by simp)
        · rename_i base hbase
          split at hres
          · rename_i htxt
            obtain rfl : res = _ := (Option.some.inj hres).symm
            exact ⟨base, hid, hidge, hlat, hlng, hbase, rfl, fun _ => rfl⟩
          · rename_i htxt
            split at hres
            · exact absurd hres (by simp)
            · rename_i text htext
              obtain rfl : res = _ := (Option.some.inj hres).symm
              exact ⟨base, hid, hidge, hlat, hlng, hbase, rfl, fun h => absurd h htxt⟩
      · rename_i hnotboth
        exact absurd hres (by simp)

theorem lookup_isSome_of_key (l : List (String × String)) (k : String)
    (h : ∃ p ∈ l, p.1 = k) : (List.lookup k l).isSome = true := by
  induction l with
  | nil => rcases h with ⟨p, hp, _⟩; simp at hp
  | cons q rest ih =>
      rcases h with ⟨p, hp, hk⟩
      rcases List.mem_cons.1 hp with rfl | hp'
      · simp [List.lookup, ← hk]
      · by_cases hq : k = q.1
        · simp [List.lookup, hq]
        · have hbeq : (k == q.1) = false := by simpa using hq
          simp only [List.lookup, hbeq]
          exact ih ⟨p, hp', hk⟩

/-- C9. When no text columns are configured, the resolved text columns are
exactly the resolved metadata columns minus the identifier column and minus
the lat and lng columns when those resolve — a filter, so order is preserved
— and the resulting list has no duplicates. -/
theorem text_default_is_metadata_minus (header : List String) (cols : ColumnConfig)
    (res : columnIndexes) (hres : resolveColumns header cols = some res)
    (htext : cols.Text = []) :
    res.Text = res.Metadata.filter (fun ci => ¬ textSkip res.ID res.Lat res.Lng ci)
    ∧ res.Text.Nodup := by
  rcases resolveColumns_inv header cols res hres with ⟨base, _, _, _, _, hbase, hmeta, htxt⟩
  have h1 : res.Text
      = res.Metadata.filter (fun ci => ¬ textSkip res.ID res.Lat res.Lng ci) := by
    rw [htxt htext, hmeta]
  refine ⟨h1, ?_⟩
  rw [h1]
  have hnames : (res.Metadata.map columnIndex.Name).Nodup := by
    rw [hmeta]
    exact forcedMeta_names_nodup base _ _ _
      (resolveMetadata_names_nodup _ _ _ _ hbase)
  exact (List.Nodup.of_map _ hnames).filter _

theorem text_default_is_metadata_minus_witness :
    resolveColumns ["id", "name", "lat", "lng"]
        ⟨"id", [], [], "lat", "lng"⟩
        = some ⟨⟨"id", 0⟩, [⟨"name", 1⟩],
            [⟨"id", 0⟩, ⟨"name", 1⟩, ⟨"lat", 2⟩, ⟨"lng", 3⟩], ⟨"lat", 2⟩, ⟨"lng", 3⟩⟩
      ∧ ([(⟨"name", 1⟩ : columnIndex)] : List columnIndex).Nodup :=
  ⟨by decide,
    (text_default_is_metadata_minus ["id", "name", "lat", "lng"]
      ⟨"id", [], [], "lat", "lng"⟩
      ⟨⟨"id", 0⟩, [⟨"name", 1⟩],
        [⟨"id", 0⟩, ⟨"name", 1⟩, ⟨"lat", 2⟩, ⟨"lng", 3⟩], ⟨"lat", 2⟩, ⟨"lng", 3⟩⟩
      (by decide) rfl).2⟩

/-- C10. Whenever resolution succeeds, the resolved metadata columns contain
the identifier column's name, and the lat / lng columns' names whenever
those resolved to a header position — even when an explicit metadata list
omits them; consequently the metadata map of every successfully built
record contains the identifier field, which is what makes equality
filtering on the identifier possible. -/
theorem metadata_contains_forced (header : List String) (cols : ColumnConfig)
    (res : columnIndexes) (hres : resolveColumns header cols = some res) :
    (∃ ci ∈ res.Metadata, ci.Name = res.ID.Name)
    ∧ (res.Lat.Index ≥ 0 → ∃ ci ∈ res.Metadata, ci.Name = res.Lat.Name)
    ∧ (res.Lng.Index ≥ 0 → ∃ ci ∈ res.Metadata, ci.Name = res.Lng.Name)
    ∧ ∀ row rec, buildRecord row res = some rec →
        (rec.metadata.lookup res.ID.Name).isSome = true := by
  rcases resolveColumns_inv header cols res hres with ⟨base, _, hidge, _, _, _, hmeta, _⟩
  have hid : ∃ ci ∈ res.Metadata, ci.Name = res.ID.Name := by
    rw [hmeta]
    unfold forcedMeta
    rcases addMeta_mem_name base res.ID (by omega) with ⟨c, hc, hname⟩
    exact ⟨c, addMetaIfResolved_mem_mono _ _ _ (addMetaIfResolved_mem_mono _ _ _ hc), hname⟩
  refine ⟨hid, ?_, ?_, ?_⟩
  · intro hlat
    rw [hmeta]
    unfold forcedMeta
    rcases addMeta_mem_name (addMeta base res.ID) res.Lat hlat with ⟨c, hc, hname⟩
    refine ⟨c, addMetaIfResolved_mem_mono _ _ _ ?_, hname⟩
    unfold addMetaIfResolved
    rw [if_pos hlat]
    exact hc
  · intro hlng
    rw [hmeta]
    unfold forcedMeta
    rcases addMeta_mem_name (addMetaIfResolved (addMeta base res.ID) res.Lat) res.Lng hlng
      with ⟨c, hc, hname⟩
    refine ⟨c, ?_, hname⟩
    unfold addMetaIfResolved
    rw [if_pos hlng]
    exact hc
  · intro row rec hb
    unfold buildRecord at hb
    split at hb
    · exact absurd hb (by simp)
    · split at hb
      · exact absurd hb (by simp)
      · split at hb
        · obtain rfl : rec = _ := (Option.some.inj hb).symm
          rcases hid with ⟨ci, hci, hname⟩
          apply lookup_isSome_of_key
          exact ⟨(ci.Name, getField row ci.Index), List.mem_map.2 ⟨ci, hci, rfl⟩, hname⟩
        · exact absurd hb (by simp)

theorem metadata_contains_forced_witness :
    resolveColumns ["id", "name"] ⟨"id", ["name"], ["name"], "", ""⟩
        = some ⟨⟨"id", 0⟩, [⟨"name", 1⟩], [⟨"name", 1⟩, ⟨"id", 0⟩], ⟨"", -1⟩, ⟨"", -1⟩⟩
      ∧ (List.lookup "id" [("name", "x"), ("id", "7")]).isSome = true :=
  ⟨by decide,
    (metadata_contains_forced ["id", "name"] ⟨"id", ["name"], ["name"], "", ""⟩
      ⟨⟨"id", 0⟩, [⟨"name", 1⟩], [⟨"name", 1⟩, ⟨"id", 0⟩], ⟨"", -1⟩, ⟨"", -1⟩⟩
      (by decide)).2.2.2 ["7", "x"]
      ⟨"7", [("name", "x"), ("id", "7")], ["x"], none, none⟩ (by decide)⟩

/-! ## The fingerprint preimage construction

`hashRecord` joins its parts with `|`; whether two distinct row contents can
produce the same preimage therefore hinges on whether field values can
contain the separators. -/

/-- C4 is false as stated: fingerprint equality does not imply content
equality. Two rows of one run (same namespace, same metadata key set) whose
text parts are `["a\nb"]` and `["a", "b"]` have equal fingerprints — the
newline join erases the part boundary — but different text-part lists; and
two rows whose metadata maps are `{a: "1|b=2", b: "3"}` and
`{a: "1", b: "2|b=3"}` have equal fingerprints — the `|` join erases the
entry boundary — but different metadata maps. -/
theorem fingerprint_injective_counterexample :
    (hashRecord "d" ⟨"k", [("id", "k")], ["a\nb"], none, none⟩
        = hashRecord "d" ⟨"k", [("id", "k")], ["a", "b"], none, none⟩
      ∧ (⟨"k", [("id", "k")], ["a\nb"], none, none⟩ : Record).textParts
        ≠ (⟨"k", [("id", "k")], ["a", "b"], none, none⟩ : Record).textParts)
    ∧ (hashRecord "d" ⟨"k", [("a", "1|b=2"), ("b", "3")], ["x"], none, none⟩
        = hashRecord "d" ⟨"k", [("a", "1"), ("b", "2|b=3")], ["x"], none, none⟩
      ∧ (⟨"k", [("a", "1|b=2"), ("b", "3")], ["x"], none, none⟩ : Record).metadata.lookup "a"
        ≠ (⟨"k", [("a", "1"), ("b", "2|b=3")], ["x"], none, none⟩ : Record).metadata.lookup "a") :=
  ⟨⟨by decide, by decide⟩, by decide, by decide⟩

/-- The character `c` does not occur in the string `s`. -/
def charFree (c : Char) (s : String) : Prop :=
  c ∉ s.data

instance (c : Char) (s : String) : Decidable (charFree c s) := by
  unfold charFree
  infer_instance

theorem charFree_append (c : Char) (a b : String) :
    charFree c (a ++ b) ↔ charFree c a ∧ charFree c b := by
  unfold charFree
  rw [String.data_append]
  simp [not_or]

/-- Character-list version of `goJoin`. -/
def joinData (sep : List Char) : List (List Char) → List Char
  | [] => []
  | [s] => s
  | s :: rest => s ++ sep ++ joinData sep rest

theorem goJoin_data (sep : String) :
    ∀ parts : List String,
      (goJoin sep parts).data = joinData sep.data (parts.map String.data)
  | [] => rfl
  | [_] => rfl
  | s :: r :: rest => by
      show (s ++ sep ++ goJoin sep (r :: rest)).data = _
      rw [String.data_append, String.data_append, goJoin_data sep (r :: rest)]
      rfl

/-- Splitting at the first occurrence of a character neither side contains
is unambiguous. -/
theorem splitChar_inj (c : Char) :
    ∀ (a1 a2 r1 r2 : List Char), c ∉ a1 → c ∉ a2 →
      a1 ++ c :: r1 = a2 ++ c :: r2 → a1 = a2 ∧ r1 = r2
  | [], [], r1, r2, _, _, h => ⟨rfl, by simpa using h⟩
  | [], b :: a2', r1, r2, _, h2, h => by
      simp only [List.nil_append, List.cons_append, List.cons.injEq] at h
      exact absurd h.1 (by intro he; exact h2 (he ▸ List.mem_cons_self b a2'))
  | a :: a1', [], r1, r2, h1, _, h => by
      simp only [List.nil_append, List.cons_append, List.cons.injEq] at h
      exact absurd h.1.symm (by intro he; exact h1 (he ▸ List.mem_cons_self a a1'))
  | a :: a1', b :: a2', r1, r2, h1, h2, h => by
      simp only [List.cons_append, List.cons.injEq] at h
      obtain ⟨hab, htail⟩ := h
      obtain ⟨he, ht⟩ := splitChar_inj c a1' a2' r1 r2
        (fun hm => h1 (List.mem_cons_of_mem _ hm))
        (fun hm => h2 (List.mem_cons_of_mem _ hm)) htail
      exact ⟨by rw [hab, he], ht⟩

/-- Joining non-empty lists of `c`-free character lists with the single
separator `c` is injective. -/
theorem joinData_single_inj (c : Char) :
    ∀ (xs ys : List (List Char)), xs ≠ [] → ys ≠ [] →
      (∀ s ∈ xs, c ∉ s) → (∀ s ∈ ys, c ∉ s) →
      joinData [c] xs = joinData [c] ys → xs = ys
  | [], _, hx, _, _, _, _ => absurd rfl hx
  | _ :: _, [], _, hy, _, _, _ => absurd rfl hy
  | [x], [y], _, _, _, _, h => by rw [show x = y from h]
  | [x], y1 :: y2 :: ys, _, _, hpx, _, h => by
      exfalso
      apply hpx x (by simp)
      have h' : x = y1 ++ [c] ++ joinData [c] (y2 :: ys) := h
      rw [h']
      exact List.mem_append_left _ (List.mem_append_right _ (by simp))
  | x1 :: x2 :: xs, [y], _, _, _, hpy, h => by
      exfalso
      apply hpy y (by simp)
      have h' : x1 ++ [c] ++ joinData [c] (x2 :: xs) = y := h
      rw [← h']
      exact List.mem_append_left _ (List.mem_append_right _ (by simp))
  | x1 :: x2 :: xs, y1 :: y2 :: ys, _, _, hpx, hpy, h => by
      have h' : x1 ++ c :: joinData [c] (x2 :: xs) = y1 ++ c :: joinData [c] (y2 :: ys) := by
        have h'' : x1 ++ [c] ++ joinData [c] (x2 :: xs)
            = y1 ++ [c] ++ joinData [c] (y2 :: ys) := h
        simpa [List.append_assoc] using h''
      obtain ⟨he, ht⟩ := splitChar_inj c x1 y1 _ _ (hpx x1 (by simp)) (hpy y1 (by simp)) h'
      have hrest := joinData_single_inj c (x2 :: xs) (y2 :: ys) (by simp) (by simp)
        (fun s hs => hpx s (by simp [hs])) (fun s hs => hpy s (by simp [hs])) ht
      rw [he, hrest]

/-- `strings.Join` with a single-character separator is injective on
non-empty part lists that do not contain the separator. -/
theorem goJoin_char_inj (sep : String) (c : Char) (hsep : sep.data = [c])
    (xs ys : List String) (hx : xs ≠ []) (hy : ys ≠ [])
    (hpx : ∀ s ∈ xs, charFree c s) (hpy : ∀ s ∈ ys, charFree c s)
    (h : goJoin sep xs = goJoin sep ys) : xs = ys := by
  have hd : joinData [c] (xs.map String.data) = joinData [c] (ys.map String.data) := by
    rw [← hsep, ← goJoin_data, ← goJoin_data, h]
  have hmap := joinData_single_inj c (xs.map String.data) (ys.map String.data)
    (by simpa using hx) (by simpa using hy)
    (by
      intro s hs
      rcases List.mem_map.1 hs with ⟨t, ht, rfl⟩
      exact hpx t ht)
    (by
      intro s hs
      rcases List.mem_map.1 hs with ⟨t, ht, rfl⟩
      exact hpy t ht)
    hd
  exact List.map_injective_iff.2 (fun a b hab => String.ext hab) hmap

/-! ## The coordinate rendering is an injective, separator-free encoding -/

/-- `c` renders some decimal digit. -/
def isDigitChar (c : Char) : Prop :=
  ∃ d, d < 10 ∧ c = Nat.digitChar d

theorem digitChar_inj_lt : ∀ a < 10, ∀ b < 10, Nat.digitChar a = Nat.digitChar b → a = b := by
  decide

theorem digitChar_ne_pipe : ∀ d < 10, Nat.digitChar d ≠ '|' := by decide

theorem digitChar_ne_dash : ∀ d < 10, Nat.digitChar d ≠ '-' := by decide

theorem digitChar_ne_slash : ∀ d < 10, Nat.digitChar d ≠ '/' := by decide

theorem digitChar_ne_zeroChar : ∀ d < 10, d ≠ 0 → Nat.digitChar d ≠ '0' := by decide

theorem natRepr_data (n : Nat) :
    (natRepr n).data = if n = 0 then ['0'] else (Nat.digits 10 n).reverse.map Nat.digitChar := by
  unfold natRepr
  split <;> rfl

theorem natRepr_chars (n : Nat) : ∀ c ∈ (natRepr n).data, isDigitChar c := by
  rw [natRepr_data]
  split
  · intro c hc
    simp only [List.mem_singleton] at hc
    exact ⟨0, by omega, by rw [hc]; rfl⟩
  · intro c hc
    simp only [List.mem_map, List.mem_reverse] at hc
    rcases hc with ⟨d, hd, rfl⟩
    exact ⟨d, Nat.digits_lt_base (by omega) hd, rfl⟩

theorem natRepr_data_ne_nil (n : Nat) : (natRepr n).data ≠ [] := by
  rw [natRepr_data]
  split
  · simp
  · rename_i h
    simp [Nat.digits_ne_nil_iff_ne_zero.2 h]

theorem map_digitChar_inj :
    ∀ (l1 l2 : List Nat), (∀ d ∈ l1, d < 10) → (∀ d ∈ l2, d < 10) →
      l1.map Nat.digitChar = l2.map Nat.digitChar → l1 = l2
  | [], [], _, _, _ => rfl
  | [], _ :: _, _, _, h => by simp at h
  | _ :: _, [], _, _, h => by simp at h
  | a :: l1, b :: l2, h1, h2, h => by
      simp only [List.map_cons, List.cons.injEq] at h
      rw [digitChar_inj_lt a (h1 a (by simp)) b (h2 b (by simp)) h.1,
        map_digitChar_inj l1 l2 (fun d hd => h1 d (by simp [hd]))
          (fun d hd => h2 d (by simp [hd])) h.2]

theorem natRepr_singleton_zero (n : Nat) (h : (natRepr n).data = ['0']) : n = 0 := by
  by_contra hn
  rw [natRepr_data, if_neg hn] at h
  cases hds : (Nat.digits 10 n).reverse with
  | nil => rw [hds] at h; simp at h
  | cons d ds =>
      rw [hds] at h
      simp only [List.map_cons, List.cons.injEq, List.map_eq_nil_iff] at h
      have hdmem : d ∈ Nat.digits 10 n := by
        rw [← List.mem_reverse, hds]
        simp
      have hd10 : d < 10 := Nat.digits_lt_base (by omega) hdmem
      have hdne : d ≠ 0 := by
        intro hd0
        have hlast := Nat.getLast_digit_ne_zero 10 hn
        have h1 : (Nat.digits 10 n).reverse.head? = some d := by rw [hds]; rfl
        have h2 : (Nat.digits 10 n).getLast? = some d := by rw [← List.head?_reverse, h1]
        have h4 := List.getLast?_eq_getLast (Nat.digits 10 n)
          (Nat.digits_ne_nil_iff_ne_zero.2 hn)
        rw [h2] at h4
        exact hlast (Option.some.inj h4 ▸ hd0)
      exact digitChar_ne_zeroChar d hd10 hdne h.1

theorem natRepr_inj (m n : Nat) (h : natRepr m = natRepr n) : m = n := by
  have hd := congrArg String.data h
  by_cases hm : m = 0 <;> by_cases hn : n = 0
  · rw [hm, hn]
  · exact absurd (natRepr_singleton_zero n (by rw [← hd, natRepr_data, if_pos hm])).symm
      (by exact fun he => hn he.symm)
  · exact absurd (natRepr_singleton_zero m (by rw [hd, natRepr_data, if_pos hn])) hm
  · rw [natRepr_data, natRepr_data, if_neg hm, if_neg hn] at hd
    have hmap := map_digitChar_inj _ _
      (fun d hmem => Nat.digits_lt_base (by omega) (List.mem_reverse.1 hmem))
      (fun d hmem => Nat.digits_lt_base (by omega) (List.mem_reverse.1 hmem)) hd
    have hdig : Nat.digits 10 m = Nat.digits 10 n := List.reverse_injective hmap
    have := congrArg (Nat.ofDigits 10) hdig
    rwa [Nat.ofDigits_digits, Nat.ofDigits_digits] at this

theorem intRepr_chars (i : Int) : ∀ c ∈ (intRepr i).data, isDigitChar c ∨ c = '-' := by
  unfold intRepr
  split
  · intro c hc
    rw [String.data_append] at hc
    rcases List.mem_append.1 hc with hc | hc
    · right
      simpa using hc
    · exact Or.inl (natRepr_chars _ c hc)
  · exact fun c hc => Or.inl (natRepr_chars _ c hc)

theorem intRepr_data_ne_nil (i : Int) : (intRepr i).data ≠ [] := by
  unfold intRepr
  split
  · rw [String.data_append]
    simp
  · exact natRepr_data_ne_nil _

theorem strAppend_cancel_left (a b c : String) (h : a ++ b = a ++ c) : b = c := by
  have hd := congrArg String.data h
  rw [String.data_append, String.data_append] at hd
  exact String.ext (List.append_cancel_left hd)

theorem intRepr_inj (i j : Int) (h : intRepr i = intRepr j) : i = j := by
  unfold intRepr at h
  by_cases hi : i < 0 <;> by_cases hj : j < 0
  · rw [if_pos hi, if_pos hj] at h
    have := natRepr_inj _ _ (strAppend_cancel_left _ _ _ h)
    omega
  · rw [if_pos hi, if_neg hj] at h
    exfalso
    have hdash : '-' ∈ (natRepr j.natAbs).data := by
      have hd := congrArg String.data h
      rw [String.data_append] at hd
      rw [← hd]
      simp
    rcases natRepr_chars _ '-' hdash with ⟨d, hd10, he⟩
    exact digitChar_ne_dash d hd10 he.symm
  · rw [if_neg hi, if_pos hj] at h
    exfalso
    have hdash : '-' ∈ (natRepr i.natAbs).data := by
      have hd := congrArg String.data h
      rw [String.data_append] at hd
      rw [hd]
      simp
    rcases natRepr_chars _ '-' hdash with ⟨d, hd10, he⟩
    exact digitChar_ne_dash d hd10 he.symm
  · rw [if_neg hi, if_neg hj] at h
    have := natRepr_inj _ _ h
    omega

theorem intRepr_slashFree (i : Int) : charFree '/' (intRepr i) := by
  intro hmem
  rcases intRepr_chars i '/' hmem with ⟨d, hd, he⟩ | he
  · exact digitChar_ne_slash d hd he.symm
  · exact absurd he (by decide)

theorem natRepr_slashFree (n : Nat) : charFree '/' (natRepr n) := by
  intro hmem
  rcases natRepr_chars n '/' hmem with ⟨d, hd, he⟩
  exact digitChar_ne_slash d hd he.symm

theorem ratRepr_inj (q1 q2 : ℚ) (h : ratRepr q1 = ratRepr q2) : q1 = q2 := by
  unfold ratRepr at h
  by_cases h1 : q1.den = 1 <;> by_cases h2 : q2.den = 1
  · rw [if_pos h1, if_pos h2] at h
    exact Rat.ext (intRepr_inj _ _ h) (h1.trans h2.symm)
  · rw [if_pos h1, if_neg h2] at h
    exfalso
    apply intRepr_slashFree q1.num
    rw [h, String.data_append, String.data_append]
    exact List.mem_append_left _ (List.mem_append_right _ (by simp))
  · rw [if_neg h1, if_pos h2] at h
    exfalso
    apply intRepr_slashFree q2.num
    rw [← h, String.data_append, String.data_append]
    exact List.mem_append_left _ (List.mem_append_right _ (by simp))
  · rw [if_neg h1, if_neg h2] at h
    have h' : goJoin "/" [intRepr q1.num, natRepr q1.den]
        = goJoin "/" [intRepr q2.num, natRepr q2.den] := h
    have hlists := goJoin_char_inj "/" '/' rfl _ _ (by simp) (by simp)
      (by
        intro s hs
        rcases List.mem_cons.1 hs with rfl | hs'
        · exact intRepr_slashFree _
        · rcases List.mem_singleton.1 hs' with rfl
          exact natRepr_slashFree _)
      (by
        intro s hs
        rcases List.mem_cons.1 hs with rfl | hs'
        · exact intRepr_slashFree _
        · rcases List.mem_singleton.1 hs' with rfl
          exact natRepr_slashFree _)
      h'
    simp only [List.cons.injEq, and_true] at hlists
    exact Rat.ext (intRepr_inj _ _ hlists.1) (natRepr_inj _ _ hlists.2)

theorem ratRepr_ne_empty (q : ℚ) : ratRepr q ≠ "" := by
  unfold ratRepr
  intro h
  have hd := congrArg String.data h
  split at hd
  · exact intRepr_data_ne_nil q.num (by simpa using hd)
  · rw [String.data_append, String.data_append] at hd
    simp only [List.append_eq_nil] at hd
    exact intRepr_data_ne_nil q.num hd.1.1

theorem ratRepr_chars (q : ℚ) : ∀ c ∈ (ratRepr q).data, isDigitChar c ∨ c = '-' ∨ c = '/' := by
  unfold ratRepr
  split
  · intro c hc
    rcases intRepr_chars q.num c hc with h | h
    · exact Or.inl h
    · exact Or.inr (Or.inl h)
  · intro c hc
    rw [String.data_append, String.data_append] at hc
    rcases List.mem_append.1 hc with hc' | hc'
    · rcases List.mem_append.1 hc' with hc'' | hc''
      · rcases intRepr_chars q.num c hc'' with h | h
        · exact Or.inl h
        · exact Or.inr (Or.inl h)
      · right; right
        simpa using hc''
    · exact Or.inl (natRepr_chars q.den c hc')

/-- The coordinate rendering never contains the `|` separator. -/
theorem formatFloat_pipeFree (v : Option ℚ) : charFree '|' (formatFloat v) := by
  cases v with
  | none => intro hmem; simp [formatFloat] at hmem
  | some q =>
      intro hmem
      rcases ratRepr_chars q '|' hmem with ⟨d, hd, he⟩ | he | he
      · exact digitChar_ne_pipe d hd he.symm
      · exact absurd he (by decide)
      · exact absurd he (by decide)

/-- The coordinate rendering is injective: equal formatted coordinates mean
equal (presence and) values. -/
theorem formatFloat_inj (v w : Option ℚ) (h : formatFloat v = formatFloat w) : v = w := by
  cases v with
  | none =>
      cases w with
      | none => rfl
      | some q => exact absurd (h.symm : ratRepr q = "") (ratRepr_ne_empty q)
  | some q =>
      cases w with
      | none => exact absurd (h : ratRepr q = "") (ratRepr_ne_empty q)
      | some r => rw [ratRepr_inj q r h]

/-! ## Fingerprint preimage injectivity under separator-freeness -/

theorem lookup_mem (l : List (String × String)) (k v : String)
    (h : List.lookup k l = some v) : (k, v) ∈ l := by
  induction l with
  | nil => simp [List.lookup] at h
  | cons q rest ih =>
      by_cases hq : k = q.1
      · have hbeq : (k == q.1) = true := by simpa using hq
        simp only [List.lookup, hbeq] at h
        have hv : v = q.2 := (Option.some.inj h).symm
        rw [hq, hv]
        exact List.mem_cons_self _ _
      · have hbeq : (k == q.1) = false := by simpa using hq
        simp only [List.lookup, hbeq] at h
        exact List.mem_cons_of_mem _ (ih h)

theorem lookup_eq_none_of_not_key (l : List (String × String)) (k : String)
    (h : k ∉ l.map Prod.fst) : List.lookup k l = none := by
  induction l with
  | nil => rfl
  | cons q rest ih =>
      have hbeq : (k == q.1) = false := by
        simp only [beq_eq_false_iff_ne, ne_eq]
        intro he
        exact h (by simp [he])
      simp only [List.lookup, hbeq]
      exact ih (fun hm => h (by simp [hm]))

theorem goJoin_charFree (c : Char) (sep : String) (hsep : c ∉ sep.data) :
    ∀ parts : List String, (∀ p ∈ parts, charFree c p) → charFree c (goJoin sep parts)
  | [], _ => by
      unfold charFree goJoin
      simp
  | [s], h => h s (by simp)
  | s :: r :: rest, h => by
      show charFree c (s ++ sep ++ goJoin sep (r :: rest))
      rw [charFree_append, charFree_append]
      exact ⟨⟨h s (by simp), hsep⟩,
        goJoin_charFree c sep hsep (r :: rest) (fun p hp => h p (by simp [hp]))⟩

theorem mem_sortedKeys_iff (md : List (String × String)) (k : String) :
    k ∈ sortedKeys md ↔ k ∈ md.map Prod.fst :=
  (List.perm_insertionSort _ _).mem_iff

/-- The fingerprint parts after the leading namespace: everything in
`hashParts` but the dataset. -/
def hashTail (rec : Record) : List String :=
  [rec.id]
    ++ (if rec.textParts.length > 0 then [goJoin "\n" rec.textParts] else [])
    ++ (sortedKeys rec.metadata).map (fun k => k ++ "=" ++ lookupMeta rec.metadata k)
    ++ [formatFloat rec.lat, formatFloat rec.lng]

theorem hashParts_eq_cons (d : String) (rec : Record) :
    hashParts d rec = d :: hashTail rec := by
  unfold hashParts hashTail
  simp

theorem hashTail_ne_nil (rec : Record) : hashTail rec ≠ [] := by
  unfold hashTail
  simp

theorem goJoin_cons (sep s : String) (rest : List String) (h : rest ≠ []) :
    goJoin sep (s :: rest) = s ++ sep ++ goJoin sep rest := by
  cases rest with
  | nil => exact absurd rfl h
  | cons r rest' => rfl

/-- The namespace occupies an unambiguous prefix of the preimage: the hash
input is the namespace, one separator, then the join of the remaining
parts — whatever characters the namespace itself contains. -/
theorem hashRecord_eq_prefix (d : String) (rec : Record) :
    hashRecord d rec = d ++ "|" ++ goJoin "|" (hashTail rec) := by
  unfold hashRecord
  rw [hashParts_eq_cons, goJoin_cons _ _ _ (hashTail_ne_nil rec)]

theorem hashTail_pipeFree (r : Record)
    (hid : charFree '|' r.id) (hpt : ∀ p ∈ r.textParts, charFree '|' p)
    (hpm : ∀ kv ∈ r.metadata, charFree '|' kv.1 ∧ charFree '|' kv.2) :
    ∀ s ∈ hashTail r, charFree '|' s := by
  intro s hs
  unfold hashTail at hs
  rcases List.mem_append.1 hs with hs' | hs'
  · rcases List.mem_append.1 hs' with hs'' | hs''
    · rcases List.mem_append.1 hs'' with hs3 | hs3
      · rw [List.mem_singleton.1 hs3]
        exact hid
      · by_cases ht : r.textParts.length > 0
        · rw [if_pos ht] at hs3
          rw [List.mem_singleton.1 hs3]
          exact goJoin_charFree '|' "\n" (by decide) r.textParts hpt
        · rw [if_neg ht] at hs3
          simp at hs3
    · rcases List.mem_map.1 hs'' with ⟨k, hk, rfl⟩
      have hkmem : k ∈ r.metadata.map Prod.fst := (mem_sortedKeys_iff _ _).1 hk
      rcases List.mem_map.1 hkmem with ⟨kv, hkv, rfl⟩
      rw [charFree_append, charFree_append]
      refine ⟨⟨(hpm kv hkv).1, by decide⟩, ?_⟩
      unfold lookupMeta
      cases hlk : List.lookup kv.1 r.metadata with
      | none =>
          intro hmem
          simp at hmem
      | some v =>
          exact (hpm _ (lookup_mem _ _ _ hlk)).2
  · rcases List.mem_cons.1 hs' with rfl | hs''
    · exact formatFloat_pipeFree r.lat
    · rw [List.mem_singleton.1 hs'']
      exact formatFloat_pipeFree r.lng

/-- C4 (amended). The fingerprint is the SHA-256 hash of the `|`-joined
parts (namespace, id, joined text, sorted `k=v` metadata entries, formatted
coordinates). For two rows of one ingestion run — same namespace and same
resolved metadata key set — whose ids, text parts, metadata keys and values
are free of the `|` separator, equality of the fingerprint preimages implies
equality of the row content as far as the construction preserves it: equal
ids, equal joined embeddable text, equal metadata maps and equal
coordinates. The namespace needs no restriction: it is a shared prefix of
both preimages and cancels. (The unamended claim fails: a newline inside a
text part or a `|` inside a metadata value shifts part boundaries without
changing the preimage — see the counterexample.) -/
theorem fingerprint_content_equal (d : String) (r1 r2 : Record)
    (hkeys : sortedKeys r1.metadata = sortedKeys r2.metadata)
    (hpid1 : charFree '|' r1.id) (hpid2 : charFree '|' r2.id)
    (hpt1 : ∀ p ∈ r1.textParts, charFree '|' p)
    (hpt2 : ∀ p ∈ r2.textParts, charFree '|' p)
    (hpm1 : ∀ kv ∈ r1.metadata, charFree '|' kv.1 ∧ charFree '|' kv.2)
    (hpm2 : ∀ kv ∈ r2.metadata, charFree '|' kv.1 ∧ charFree '|' kv.2)
    (h : hashRecord d r1 = hashRecord d r2) :
    r1.id = r2.id ∧ embeddingText r1 = embeddingText r2
    ∧ (∀ k, r1.metadata.lookup k = r2.metadata.lookup k)
    ∧ r1.lat = r2.lat ∧ r1.lng = r2.lng := by
  have hcancel : goJoin "|" (hashTail r1) = goJoin "|" (hashTail r2) := by
    apply strAppend_cancel_left (d ++ "|")
    rw [← hashRecord_eq_prefix, ← hashRecord_eq_prefix]
    exact h
  have hP := goJoin_char_inj "|" '|' rfl (hashTail r1) (hashTail r2)
    (hashTail_ne_nil r1) (hashTail_ne_nil r2)
    (hashTail_pipeFree r1 hpid1 hpt1 hpm1)
    (hashTail_pipeFree r2 hpid2 hpt2 hpm2) hcancel
  unfold hashTail at hP
  obtain ⟨h12, hAB⟩ := List.append_inj' hP rfl
  have hlenM : ((sortedKeys r1.metadata).map
        (fun k => k ++ "=" ++ lookupMeta r1.metadata k)).length
      = ((sortedKeys r2.metadata).map
        (fun k => k ++ "=" ++ lookupMeta r2.metadata k)).length := by
    simp [hkeys]
  obtain ⟨h3, hM⟩ := List.append_inj' h12 hlenM
  obtain ⟨hhd, hT⟩ := List.append_inj h3 rfl
  have hid : r1.id = r2.id := (List.cons.inj hhd).1
  have htext : embeddingText r1 = embeddingText r2 := by
    by_cases h1 : r1.textParts.length > 0 <;> by_cases h2 : r2.textParts.length > 0
    · rw [if_pos h1, if_pos h2] at hT
      exact (List.cons.inj hT).1
    · rw [if_pos h1, if_neg h2] at hT
      simp at hT
    · rw [if_neg h1, if_pos h2] at hT
      simp at hT
    · unfold embeddingText
      have e1 : r1.textParts = [] := List.length_eq_zero.1 (by omega)
      have e2 : r2.textParts = [] := List.length_eq_zero.1 (by omega)
      rw [e1, e2]
  have hmeta : ∀ k, r1.metadata.lookup k = r2.metadata.lookup k := by
    intro k
    by_cases hk : k ∈ r1.metadata.map Prod.fst
    · have hk1 : k ∈ sortedKeys r1.metadata := (mem_sortedKeys_iff _ _).2 hk
      have hk2 : k ∈ r2.metadata.map Prod.fst := (mem_sortedKeys_iff _ _).1 (hkeys ▸ hk1)
      have hmm : (sortedKeys r1.metadata).map (fun k => k ++ "=" ++ lookupMeta r1.metadata k)
          = (sortedKeys r1.metadata).map (fun k => k ++ "=" ++ lookupMeta r2.metadata k) := by
        rw [hM, hkeys]
      have hvk := List.map_eq_map_iff.1 hmm k hk1
      have hv : lookupMeta r1.metadata k = lookupMeta r2.metadata k :=
        strAppend_cancel_left _ _ _ hvk
      have hs1 := lookup_isSome_of_key r1.metadata k
        (by
          rcases List.mem_map.1 hk with ⟨kv, hkv, rfl⟩
          exact ⟨kv, hkv, rfl⟩)
      have hs2 := lookup_isSome_of_key r2.metadata k
        (by
          rcases List.mem_map.1 hk2 with ⟨kv, hkv, rfl⟩
          exact ⟨kv, hkv, rfl⟩)
      cases hl1 : List.lookup k r1.metadata with
      | none => rw [hl1] at hs1; simp at hs1
      | some v1 =>
          cases hl2 : List.lookup k r2.metadata with
          | none => rw [hl2] at hs2; simp at hs2
          | some v2 =>
              unfold lookupMeta at hv
              rw [hl1, hl2] at hv
              simpa using hv
    · have hk2 : k ∉ r2.metadata.map Prod.fst := by
        intro hmem
        exact hk ((mem_sortedKeys_iff _ _).1
          (hkeys ▸ (mem_sortedKeys_iff r2.metadata k).2 hmem))
      rw [lookup_eq_none_of_not_key _ _ hk, lookup_eq_none_of_not_key _ _ hk2]
  have hcoord : r1.lat = r2.lat ∧ r1.lng = r2.lng := by
    have h1 : formatFloat r1.lat = formatFloat r2.lat := (List.cons.inj hAB).1
    have h2 : formatFloat r1.lng = formatFloat r2.lng := by
      injection (List.cons.inj hAB).2 with h2 _
    exact ⟨formatFloat_inj _ _ h1, formatFloat_inj _ _ h2⟩
  exact ⟨hid, htext, hmeta, hcoord.1, hcoord.2⟩

theorem fingerprint_content_equal_witness :
    charFree '|' "k"
      ∧ (∀ p ∈ ["a"], charFree '|' p)
      ∧ (∀ kv ∈ [("id", "k")], charFree '|' kv.1 ∧ charFree '|' kv.2)
      ∧ (⟨"k", [("id", "k")], ["a"], none, none⟩ : Record).id
        = (⟨"k", [("id", "k")], ["a"], none, none⟩ : Record).id :=
  ⟨by decide, by decide, by decide,
    (fingerprint_content_equal "d" ⟨"k", [("id", "k")], ["a"], none, none⟩
      ⟨"k", [("id", "k")], ["a"], none, none⟩ rfl (by decide) (by decide) (by decide)
      (by decide) (by decide) (by decide) rfl).1⟩

end CsvSearch
